import Mathlib

/-!
Verification of the transcript-clipping pipeline (`clipper.py`).

The Python source is shallowly embedded: strings become `List Char`,
floating-point seconds/milliseconds become `ℚ`, dictionaries with optional
keys become structures with `Option` fields, and the effectful download
logic becomes a pure function over an environment recording the outcome of
each external call, paired with a trace of the effects it would perform.
Python's Unicode-aware character classes (`\s`, `\w`, `str.lower`) are
modelled on their ASCII fragment, which is what every concrete example in
the development uses.
-/

namespace Clipper

/-- Characters matched by Python's `\s` class (ASCII fragment):
space, tab, newline, carriage return, vertical tab, form feed. -/
def isPySpace (c : Char) : Bool :=
  c = ' ' || c = '\t' || c = '\n' || c = '\r' || c = '\x0b' || c = '\x0c'

/-- Characters matched by Python's `\w` class (ASCII fragment):
alphanumerics and underscore. -/
def isWordChar (c : Char) : Bool :=
  c.isAlphanum || c = '_'

/-- The character class kept by `re.sub(r"[^\w\s]", "", ·)`:
word characters and whitespace. -/
def goodChar (c : Char) : Bool :=
  isWordChar c || isPySpace c

/-- Replaces every maximal run of whitespace by a single space, as
`re.sub(r"\s+", " ", ·)` does.  The boolean flag records whether the
previously emitted character came from a whitespace run. -/
def collapseAux : Bool → List Char → List Char
  | _, [] => []
  | inSpace, c :: cs =>
    if isPySpace c then
      if inSpace then collapseAux true cs else ' ' :: collapseAux true cs
    else c :: collapseAux false cs

/-- Collapses whitespace runs to single spaces (`re.sub(r"\s+", " ", ·)`). -/
def collapseWs (s : List Char) : List Char := collapseAux false s

/-- Removes trailing whitespace. -/
def dropTrailing (s : List Char) : List Char :=
  ((s.reverse.dropWhile isPySpace)).reverse

/-- Python's `str.strip()`: removes leading and trailing whitespace. -/
def pyStrip (s : List Char) : List Char :=
  dropTrailing (s.dropWhile isPySpace)

/-- The `normalize` function of `clipper.py`:
collapse whitespace, strip, lower-case, then delete every character that is
neither a word character nor whitespace. -/
def normalize (s : List Char) : List Char :=
  (((collapseWs s) |> pyStrip).map Char.toLower).filter goodChar

/-- The `Segment` dataclass: one timestamped unit of transcript text.
The Python field `end` is called `stop` here because `end` is a Lean
keyword. -/
structure Segment where
  text : List Char
  start : ℚ
  stop : ℚ
  deriving DecidableEq

/-- One event of a json3 caption payload (§6 of the spec): an optional
start offset in ms, an optional duration in ms, an optional end offset in
ms, and a list of fragments each optionally carrying a `utf8` text piece. -/
structure Json3Event where
  tStartMs : Option ℚ
  dDurationMs : Option ℚ
  tEndMs : Option ℚ
  segs : List (Option (List Char))
  deriving DecidableEq

/-- The text of one event: concatenate the truthy `utf8` pieces, collapse
whitespace, strip (lines 88-93 of `clipper.py`). -/
def eventText (ev : Json3Event) : List Char :=
  pyStrip (collapseWs (ev.segs.filterMap fun o =>
    match o with
    | none => none
    | some piece => if piece = [] then none else some piece).flatten)

/-- The end-time derivation of `read_segments_from_json3` (lines 81-87):
`end_ms = tStartMs + dDurationMs.getD 0`; if that is zero (Python
truthiness) and `tEndMs` is present, use `tEndMs`; if the value is still
zero, use `start + 1000`. -/
def eventEndMs (startMs : ℚ) (dur : Option ℚ) (tEnd : Option ℚ) : ℚ :=
  let e1 := startMs + dur.getD 0
  let e2 := if e1 = 0 then
      match tEnd with
      | some e => e
      | none => e1
    else e1
  if e2 = 0 then startMs + 1000 else e2

/-- The raw segment list built by the first loop of
`read_segments_from_json3` (lines 78-96): drop events without a start
time, compute the end time, drop events whose cleaned text is empty,
convert milliseconds to seconds. -/
def rawSegments (events : List Json3Event) : List Segment :=
  events.filterMap fun ev =>
    match ev.tStartMs with
    | none => none
    | some startMs =>
      let text := eventText ev
      if text = [] then none
      else some ⟨text, startMs / 1000, eventEndMs startMs ev.dDurationMs ev.tEndMs / 1000⟩

/-- The forward fix-up pass of `read_segments_from_json3` (lines 99-105),
acting on the segments after the first one: clamp a start that precedes
the previous end, then force a positive span of at least 0.5 s. -/
def fixupAux (prev : Segment) : List Segment → List Segment
  | [] => []
  | cur :: rest =>
    let s := if cur.start < prev.stop then prev.stop else cur.start
    let e := if cur.stop ≤ s then s + 1/2 else cur.stop
    let cur' : Segment := ⟨cur.text, s, e⟩
    cur' :: fixupAux cur' rest

/-- The fix-up pass starting from index 1, as the Python loop
`for idx in range(1, len(segments))` does: the first segment is
never touched. -/
def fixupSegments : List Segment → List Segment
  | [] => []
  | first :: rest => first :: fixupAux first rest

/-- The `read_segments_from_json3` function: build the raw segments from the
event list (`data.get("events") or []`), then run the fix-up pass. -/
def read_segments_from_json3 (events : List Json3Event) : List Segment :=
  fixupSegments (rawSegments events)

/-- Joins a list of texts with single spaces:
`" ".join(seg.text for seg in window_segments)`. -/
def joinSpace (ts : List (List Char)) : List Char :=
  List.intercalate [' '] ts

/-- The `Match` dataclass.  The Python field `end` is called `stop` here
because `end` is a Lean keyword. -/
structure Match where
  text : List Char
  start : ℚ
  stop : ℚ
  score : ℚ
  start_segment_index : ℕ
  segment_count : ℕ
  deriving DecidableEq

/-- Python substring containment (`target in normalized`): whether `t`
occurs contiguously inside `h`. -/
def containsSub (t h : List Char) : Bool :=
  h.tails.any fun s => t.isPrefixOf s

/-- The iteration order of `find_best_match`: window widths 1 to
`max_window` ascending, and for each width every start index such that the
window fits, ascending (`range(0, len(segments) - window + 1)`). -/
def candidatePairs (n maxWindow : ℕ) : List (ℕ × ℕ) :=
  (List.range' 1 maxWindow).flatMap fun w =>
    (List.range (n + 1 - w)).map fun i => (w, i)

/-- The segments of the window of width `p.1` starting at index `p.2`
(`segments[index : index + window]`). -/
def windowSegs (segments : List Segment) (p : ℕ × ℕ) : List Segment :=
  (segments.drop p.2).take p.1

/-- The concatenated text of one candidate window. -/
def windowText (segments : List Segment) (p : ℕ × ℕ) : List Char :=
  joinSpace ((windowSegs segments p).map Segment.text)

/-- The start time of the first segment of a window
(`window_segments[0].start`; the default is never used because windows are
nonempty). -/
def windowStart (ws : List Segment) : ℚ :=
  (ws.head?.map Segment.start).getD 0

/-- The end time of the last segment of a window
(`window_segments[-1].end`; the default is never used because windows are
nonempty). -/
def windowStop (ws : List Segment) : ℚ :=
  (ws.getLast?.map Segment.stop).getD 0

/-- The candidate produced by one loop iteration of `find_best_match`, or
`none` when the window's normalized text is empty and the iteration is
skipped.  The similarity score of `difflib.SequenceMatcher(...).ratio()`
is an external library call, abstracted as the parameter `ratio`; the
+0.5 exact-substring bonus is applied on top of it (lines 124-126). -/
def candAt (ratio : List Char → List Char → ℚ) (target : List Char)
    (segments : List Segment) (p : ℕ × ℕ) : Option Match :=
  let combined := windowText segments p
  let normalized := normalize combined
  if normalized = [] then none
  else
    let r := ratio target normalized +
      (if containsSub target normalized then 1/2 else 0)
    some ⟨combined, windowStart (windowSegs segments p),
      windowStop (windowSegs segments p), r, p.2, p.1⟩

/-- One loop iteration of `find_best_match`: skip the candidate when its
normalized text is empty, otherwise replace the best match exactly when
the new score is strictly greater (`best is None or ratio > best.score`). -/
def stepCand (ratio : List Char → List Char → ℚ) (target : List Char)
    (segments : List Segment) (best : Option Match) (p : ℕ × ℕ) : Option Match :=
  match candAt ratio target segments p with
  | none => best
  | some c =>
    match best with
    | none => some c
    | some b => if b.score < c.score then some c else some b

/-- The `find_best_match` function, with the external similarity ratio as
a parameter: return `none` on an empty segment list or an
empty-normalizing query, otherwise fold the strict-improvement update over
all candidate windows in iteration order. -/
def find_best_match (ratio : List Char → List Char → ℚ)
    (segments : List Segment) (query : List Char) (max_window : ℕ) : Option Match :=
  if segments = [] then none
  else
    let target := normalize query
    if target = [] then none
    else (candidatePairs segments.length max_window).foldl
      (stepCand ratio target segments) none

/-- The `DownloadResult` dataclass.  The Python field is named `partial`
(a Lean keyword, so renamed): it is `true` when the produced file already
covers just the requested range — what the spec calls a precise
acquisition — and `main` skips the local trim step exactly when it is
`true`. -/
structure DownloadResult where
  path : String
  precise : Bool
  deriving DecidableEq

/-- The `assess_download` inner function of `download_clip`
(lines 227-242): an unknown duration (failed probe) yields
`partial=False`; a zero requested duration yields `partial=True`;
otherwise `partial` is whether the measured duration is within
`max(1.0, requested * 0.1)` of the requested one. -/
def assess_download (requested : ℚ) (probed : Option ℚ) (path : String) :
    DownloadResult :=
  match probed with
  | none => ⟨path, false⟩
  | some duration =>
    if requested = 0 then ⟨path, true⟩
    else if |duration - requested| ≤ max 1 (requested * (1/10)) then ⟨path, true⟩
    else ⟨path, false⟩

/-- Outcomes of the external calls made by `download_clip`: whether each
acquisition tier's `yt-dlp` invocation succeeds, and what `probe_duration`
reports for the produced file. -/
structure AcquireEnv where
  tier1_ok : Bool
  tier2_ok : Bool
  tier3_ok : Bool
  probe : Option ℚ
  deriving DecidableEq

/-- Observable effects of `download_clip`, in order: preparing the
destination (mkdir / delete of a pre-existing output) and the three
acquisition attempts. -/
inductive Effect where
  | prepDest
  | attempt1
  | attempt2
  | attempt3
  deriving DecidableEq

/-- The `download_clip` function (lines 175-276), with external outcomes
supplied by `env` and the effects it performs returned alongside the
result: raise on a non-positive window before doing anything; otherwise
prepare the destination, try the precise-range attempt, the
coarse-range attempt, then the full download.  Successful tier-1/2
attempts are assessed against the requested duration
`max(0, end - start)`; a successful tier-3 attempt is returned with
`partial=False` unconditionally; a failed tier-3 attempt propagates. -/
def download_clip (start stop : ℚ) (env : AcquireEnv) (output_path : String) :
    Except String DownloadResult × List Effect :=
  if stop ≤ start then (.error "Clip end must be after clip start.", [])
  else
    let requested := max 0 (stop - start)
    if env.tier1_ok then
      (.ok (assess_download requested env.probe output_path),
        [.prepDest, .attempt1])
    else if env.tier2_ok then
      (.ok (assess_download requested env.probe output_path),
        [.prepDest, .attempt1, .attempt2])
    else if env.tier3_ok then
      (.ok ⟨output_path ++ "_full", false⟩,
        [.prepDest, .attempt1, .attempt2, .attempt3])
    else (.error "tier-3 full download failed",
        [.prepDest, .attempt1, .attempt2, .attempt3])

/-- The branch of `main` on the download result (lines 484-494): the local
trim step runs if and only if the result is not `partial`. -/
def mainRunsTrim (r : DownloadResult) : Bool :=
  !r.precise

/-- The exit-status selection of `main`: 1 when the transcript fetch
fails, 2 when no match is found, 3 when the download/trim stage fails,
0 on success. -/
def mainExitCode (fetch_ok match_found download_ok : Bool) : ℕ :=
  if !fetch_ok then 1
  else if !match_found then 2
  else if !download_ok then 3
  else 0

/-- The cleaned text of one subtitle line
(`re.sub(r"\s+", " ", segment.text).strip()`). -/
def cleanText (t : List Char) : List Char :=
  pyStrip (collapseWs t)

/-- The first pass of `write_subtitle_file` (lines 286-289): keep the
segments overlapping the clip window, skipping those with
`end <= clip_start` or `start >= clip_end`. -/
def relevantSegs (segments : List Segment) (clip_start clip_stop : ℚ) :
    List Segment :=
  segments.filter fun s => !(s.stop ≤ clip_start) && !(s.start ≥ clip_stop)

/-- The entries emitted by `write_subtitle_file` (lines 295-307): for each
relevant segment, clip its boundaries to the window, re-time them relative
to `clip_start`, skip entries with non-positive clipped duration or empty
cleaned text. -/
def subtitleEntries (segments : List Segment) (clip_start clip_stop : ℚ) :
    List (ℚ × ℚ × List Char) :=
  (relevantSegs segments clip_start clip_stop).filterMap fun s =>
    let a := max s.start clip_start - clip_start
    let b := min s.stop clip_stop - clip_start
    if b ≤ a then none
    else
      let t := cleanText s.text
      if t = [] then none else some (a, b, t)

/-- The return value of `write_subtitle_file`: `true` exactly when at
least one entry was written (the code returns `False` both when no segment
is relevant and when every relevant segment is skipped). -/
def write_subtitle_file (segments : List Segment) (clip_start clip_stop : ℚ) :
    Bool :=
  !(subtitleEntries segments clip_start clip_stop).isEmpty

/-! ## Timeline Builder: the fix-up pass -/

/-- After the fix-up pass starting from `prev`, the sequence headed by
`prev` is weakly increasing (`prev.stop ≤ next.start` at every step) and
every repaired segment has a strictly positive span. -/
lemma fixupAux_spec (l : List Segment) (prev : Segment) :
    List.Chain' (fun a b => a.stop ≤ b.start) (prev :: fixupAux prev l) ∧
    ∀ s ∈ fixupAux prev l, s.start < s.stop := by
  induction l generalizing prev with
  | nil => simp [fixupAux]
  | cons cur rest ih =>
    simp only [fixupAux]
    set s : ℚ := if cur.start < prev.stop then prev.stop else cur.start with hs
    set e : ℚ := if cur.stop ≤ s then s + 1/2 else cur.stop with he
    have hstart : prev.stop ≤ s := by
      rw [hs]
      split
      · exact le_refl _
      · exact le_of_not_lt (by assumption)
    have hpos : s < e := by
      rw [he]
      split
      · linarith
      · exact lt_of_not_le (by assumption)
    obtain ⟨ihc, ihp⟩ := ih ⟨cur.text, s, e⟩
    refine ⟨List.Chain'.cons hstart ihc, ?_⟩
    intro x hx
    rcases List.mem_cons.mp hx with h | h
    · subst h; exact hpos
    · exact ihp x h

/-- C1 (amended): for every input event list, the Timeline Builder's
output satisfies `next.start ≥ prev.end` for every adjacent pair, and
`end > start` for every segment except possibly the first one (the fix-up
loop starts at index 1 and never repairs the first segment). -/
theorem timeline_builder_invariants (events : List Json3Event) :
    List.Chain' (fun a b => a.stop ≤ b.start) (read_segments_from_json3 events) ∧
    ∀ s ∈ (read_segments_from_json3 events).tail, s.start < s.stop := by
  unfold read_segments_from_json3 fixupSegments
  cases rawSegments events with
  | nil => simp
  | cons first rest =>
    obtain ⟨hc, hp⟩ := fixupAux_spec rest first
    exact ⟨hc, hp⟩

/-- C1 (counterexample): a single event with a zero duration and a
nonzero start yields a first segment with `end = start = 5`, violating
the claimed `end > start` invariant. -/
theorem timeline_builder_first_segment_cex :
    ∃ s ∈ read_segments_from_json3 [⟨some 5000, some 0, none, [some ['a']]⟩],
      ¬ s.start < s.stop := by
  have h1 : eventText ⟨some 5000, some 0, none, [some ['a']]⟩ = ['a'] := by decide
  have h2 : eventEndMs 5000 (some 0) none = 5000 := by norm_num [eventEndMs]
  have h3 : read_segments_from_json3 [⟨some 5000, some 0, none, [some ['a']]⟩] =
      [⟨['a'], 5, 5⟩] := by
    simp only [read_segments_from_json3, rawSegments, List.filterMap_cons,
      List.filterMap_nil, h1, h2]
    norm_num [fixupSegments, fixupAux]
  rw [h3]
  exact ⟨⟨['a'], 5, 5⟩, by simp, by norm_num⟩

/-! ## Timeline Builder: the end-time derivation -/

/-- C8 (counterexample): an event with an absent duration field, a start
of 5000 ms and an explicit end of 8000 ms produces a segment ending at
5 s, not at the claimed 8 s: Python computes
`end_ms = tStartMs + 0 = 5000`, which is truthy, so `tEndMs` is ignored. -/
theorem end_derivation_cex :
    read_segments_from_json3 [⟨some 5000, none, some 8000, [some ['a']]⟩] =
      [⟨['a'], 5, 5⟩] ∧ (5 : ℚ) ≠ 8 := by
  have h1 : eventText ⟨some 5000, none, some 8000, [some ['a']]⟩ = ['a'] := by decide
  have h2 : eventEndMs 5000 none (some 8000) = 5000 := by norm_num [eventEndMs]
  refine ⟨?_, by norm_num⟩
  simp only [read_segments_from_json3, rawSegments, List.filterMap_cons,
    List.filterMap_nil, h1, h2]
  norm_num [fixupSegments, fixupAux]

/-- C8 (amended): the end time is `start + duration` (duration defaulting
to 0 when the field is absent) whenever that sum is nonzero — so an event
with an absent duration and a nonzero start ends at its own start,
ignoring any explicit end field; only when the sum is zero is the explicit
end field used (when present and itself nonzero), and otherwise the end
defaults to `start + 1000` ms. -/
theorem end_derivation_characterization (startMs : ℚ) (dur tEnd : Option ℚ) :
    eventEndMs startMs dur tEnd =
      if startMs + dur.getD 0 ≠ 0 then startMs + dur.getD 0
      else if tEnd.getD 0 ≠ 0 then tEnd.getD 0
      else startMs + 1000 := by
  unfold eventEndMs
  cases tEnd <;> simp only [Option.getD] <;> split_ifs <;> simp_all

/-! ## Duration Assessor -/

/-- C5 (confirmed): when the requested duration is positive and the probe
succeeds, the result is marked precise (`partial=True`) exactly when the
measured duration is within `max(1, requested/10)` of the requested one. -/
theorem assess_download_tolerance (requested actual : ℚ) (path : String)
    (h : 0 < requested) :
    (assess_download requested (some actual) path).precise = true ↔
      |actual - requested| ≤ max 1 (requested * (1/10)) := by
  simp only [assess_download]
  rw [if_neg (ne_of_gt h)]
  split_ifs with h2
  · exact iff_of_true rfl h2
  · exact iff_of_false (by simp) h2

/-- C5 (witness): `requested = 10` with `actual = 10.9` is precise
(tolerance 1), and with `actual = 11.2` it is imprecise. -/
theorem assess_download_tolerance_witness :
    (assess_download 10 (some (109/10)) "p").precise = true ∧
    (assess_download 10 (some (112/10)) "q").precise = false := by
  constructor
  · exact (assess_download_tolerance 10 (109/10) "p" (by norm_num)).mpr
      (by rw [abs_le]; norm_num)
  · simpa using
      mt (assess_download_tolerance 10 (112/10) "q" (by norm_num)).mp
      (by rw [abs_le]; norm_num)

/-! ## Clip Acquisition Strategist -/

/-- C2 (counterexample): a tier-1 acquisition whose duration probe fails
is marked `partial=False`, not precise, and `main` therefore runs the
local trim step rather than skipping it — the code's own status message
says "will trim clip locally". -/
theorem probe_failure_cex :
    ¬ ((assess_download 10 none "out.mp4").precise = true) ∧
    mainRunsTrim (assess_download 10 none "out.mp4") = true := by decide

/-- C2 (amended): for every tier-1 or tier-2 acquisition whose duration
probe fails, the assessment marks the result imprecise (`partial=False`),
so the local trim step runs for that result. -/
theorem probe_failure_imprecise (start stop : ℚ) (env : AcquireEnv) (path : String)
    (h : start < stop) (hp : env.probe = none)
    (ht : env.tier1_ok = true ∨ (env.tier1_ok = false ∧ env.tier2_ok = true)) :
    (download_clip start stop env path).1 = .ok ⟨path, false⟩ ∧
    mainRunsTrim ⟨path, false⟩ = true := by
  unfold download_clip
  rw [if_neg (not_le.mpr h)]
  rcases ht with h1 | ⟨h1, h2⟩
  · simp [h1, hp, assess_download, mainRunsTrim]
  · simp [h1, h2, hp, assess_download, mainRunsTrim]

/-- C2 (witness): a concrete tier-2 acquisition with a failed probe. -/
theorem probe_failure_imprecise_witness :
    (download_clip 0 10 ⟨false, true, true, none⟩ "out.mp4").1 =
      .ok ⟨"out.mp4", false⟩ ∧
    mainRunsTrim ⟨"out.mp4", false⟩ = true :=
  probe_failure_imprecise 0 10 ⟨false, true, true, none⟩ "out.mp4"
    (by norm_num) rfl (Or.inr ⟨rfl, rfl⟩)

/-- C6 (confirmed): a tier-3 (full-download) acquisition is returned with
`partial=False` regardless of the probe outcome, so `main` always follows
it with the local trim step. -/
theorem tier3_always_imprecise (start stop : ℚ) (probe : Option ℚ) (path : String)
    (h : start < stop) :
    (download_clip start stop ⟨false, false, true, probe⟩ path).1 =
      .ok ⟨path ++ "_full", false⟩ ∧
    mainRunsTrim ⟨path ++ "_full", false⟩ = true := by
  unfold download_clip
  rw [if_neg (not_le.mpr h)]
  simp [mainRunsTrim]

/-- C6 (witness): even a full download whose measured duration exactly
matches the requested 10 s window is marked imprecise. -/
theorem tier3_always_imprecise_witness :
    (download_clip 0 10 ⟨false, false, true, some 10⟩ "out.mp4").1 =
      .ok ⟨"out.mp4_full", false⟩ ∧
    mainRunsTrim ⟨"out.mp4_full", false⟩ = true :=
  tier3_always_imprecise 0 10 (some 10) "out.mp4" (by norm_num)

/-- C10 (confirmed): a non-positive clip window makes `download_clip`
fail before performing any effect: no destination preparation, no
acquisition attempt. -/
theorem download_clip_rejects_empty_window (start stop : ℚ) (env : AcquireEnv)
    (path : String) (h : stop ≤ start) :
    download_clip start stop env path =
      (.error "Clip end must be after clip start.", []) := by
  unfold download_clip
  rw [if_pos h]

/-- C10 (witness): a zero-length window is rejected with no effects. -/
theorem download_clip_rejects_empty_window_witness :
    download_clip 1 1 ⟨true, true, true, none⟩ "out.mp4" =
      (.error "Clip end must be after clip start.", []) :=
  download_clip_rejects_empty_window 1 1 ⟨true, true, true, none⟩ "out.mp4"
    (le_refl 1)

/-! ## Caption Slicer -/

/-- Restates one `filter`-free pass of the Caption Slicer in the spec's
words (§4.6): emit exactly the segments that overlap the window
(`end > clip_start` and `start < clip_end`), have a positive clipped
duration and nonempty cleaned text, clipped to the window and re-timed
relative to `clip_start`. -/
def sliceSpec (segments : List Segment) (clip_start clip_stop : ℚ) :
    List (ℚ × ℚ × List Char) :=
  segments.filterMap fun s =>
    if clip_start < s.stop ∧ s.start < clip_stop ∧
        max s.start clip_start - clip_start < min s.stop clip_stop - clip_start ∧
        cleanText s.text ≠ []
    then some (max s.start clip_start - clip_start,
      min s.stop clip_stop - clip_start, cleanText s.text)
    else none

/-- Composing a filter into the body of a subsequent `filterMap`. -/
lemma filterMap_filter_eq {α β : Type} (p : α → Bool) (g : α → Option β)
    (l : List α) :
    (l.filter p).filterMap g =
      l.filterMap fun a => if p a then g a else none := by
  induction l with
  | nil => rfl
  | cons a l ih =>
    by_cases h : p a <;>
      simp [List.filter_cons, h, List.filterMap_cons, ih]

/-- C7 (confirmed): the Caption Slicer emits exactly the overlapping
segments with positive clipped duration and nonempty cleaned text,
clipped to the window and re-timed relative to the clip start; in
particular clip window `[5,15)` and segment `[3,7)` is emitted with
relative timing `[0,2)`. -/
theorem caption_slicer_exact (segments : List Segment) (clip_start clip_stop : ℚ) :
    subtitleEntries segments clip_start clip_stop =
      sliceSpec segments clip_start clip_stop ∧
    subtitleEntries [⟨['h', 'i'], 3, 7⟩] 5 15 = [(0, 2, ['h', 'i'])] := by
  constructor
  · unfold subtitleEntries relevantSegs sliceSpec
    rw [filterMap_filter_eq]
    congr 1
    funext s
    by_cases h1 : s.stop ≤ clip_start
    · simp [h1, not_lt.mpr h1]
    · by_cases h2 : s.start ≥ clip_stop
      · simp [h1, h2, not_lt.mpr h2]
      · by_cases h3 : min s.stop clip_stop - clip_start ≤ max s.start clip_start - clip_start
        · simp [h1, h2, h3, not_lt.mpr h3, not_le.mp h1, not_le.mp h2]
        · by_cases h4 : cleanText s.text = []
          · simp [h1, h2, h3, h4, not_le.mp h1, not_le.mp h2, not_le.mp h3]
          · simp [h1, h2, h3, h4, not_le.mp h1, not_le.mp h2, not_le.mp h3]
  · have ht : cleanText ['h', 'i'] = ['h', 'i'] := by decide
    norm_num [subtitleEntries, relevantSegs, List.filter_cons, List.filter_nil,
      List.filterMap_cons, List.filterMap_nil, ht, max_def, min_def]
    simp

/-! ## Match Locator: the no-match condition -/

/-- A candidate window is skipped exactly when its concatenated text
normalizes to the empty string. -/
lemma candAt_eq_none_iff (ratio : List Char → List Char → ℚ)
    (target : List Char) (segments : List Segment) (p : ℕ × ℕ) :
    candAt ratio target segments p = none ↔
      normalize (windowText segments p) = [] := by
  simp only [candAt]
  split_ifs with h
  · exact iff_of_true rfl h
  · exact iff_of_false (by simp) h

/-- The search fold yields no match exactly when it started with none and
every candidate in the list is skipped. -/
lemma foldl_stepCand_none_iff (ratio : List Char → List Char → ℚ)
    (target : List Char) (segments : List Segment)
    (l : List (ℕ × ℕ)) (acc : Option Match) :
    l.foldl (stepCand ratio target segments) acc = none ↔
      acc = none ∧ ∀ p ∈ l, candAt ratio target segments p = none := by
  induction l generalizing acc with
  | nil => simp
  | cons q rest ih =>
    rw [List.foldl_cons, ih]
    cases hc : candAt ratio target segments q with
    | none =>
      have hstep : stepCand ratio target segments acc q = acc := by
        simp [stepCand, hc]
      simp [hstep, List.forall_mem_cons, hc]
    | some c =>
      have hstep : stepCand ratio target segments acc q ≠ none := by
        unfold stepCand
        rw [hc]
        cases acc with
        | none => simp
        | some b =>
          show ¬(if b.score < c.score then some c else some b) = none
          split <;> simp
      simp [hstep, List.forall_mem_cons, hc]

/-- C9 (counterexample): a transcript consisting of one punctuation-only
segment makes every candidate window normalize to empty, so
`find_best_match` returns no match even though the query normalizes to a
nonempty string and the segment sequence is nonempty. -/
theorem find_best_match_none_cex :
    find_best_match (fun _ _ => 0) [⟨['!', '!', '!'], 0, 1⟩] ['h', 'i'] 4 = none ∧
    ([⟨['!', '!', '!'], 0, 1⟩] : List Segment) ≠ [] ∧
    normalize ['h', 'i'] ≠ [] := by
  refine ⟨?_, by simp, by decide⟩
  have h1 : normalize ['h', 'i'] = ['h', 'i'] := by decide
  have h2 : candidatePairs 1 4 = [(1, 0)] := by decide
  have h3 : candAt (fun _ _ => 0) ['h', 'i'] [⟨['!', '!', '!'], 0, 1⟩] (1, 0) = none := by
    rw [candAt_eq_none_iff]
    decide
  have hne : ([⟨['!', '!', '!'], 0, 1⟩] : List Segment) ≠ [] := by simp
  simp only [find_best_match, h1, List.length_singleton, if_neg hne,
    if_neg (show ¬(['h', 'i'] : List Char) = [] by simp), h2]
  rw [foldl_stepCand_none_iff]
  refine ⟨rfl, ?_⟩
  intro p hp
  rw [List.mem_singleton] at hp
  subst hp
  exact h3

/-- C9 (amended): `find_best_match` returns no match exactly when the
segment sequence is empty, the query normalizes to empty, or every
candidate window's concatenated text normalizes to empty (the extra third
case arises from punctuation-only transcripts); `main` reports a missing
match with exit status 2, distinct from the transcript-fetch failure
status 1. -/
theorem find_best_match_none_characterization :
    (∀ (ratio : List Char → List Char → ℚ) (segments : List Segment)
        (query : List Char) (max_window : ℕ),
      find_best_match ratio segments query max_window = none ↔
        segments = [] ∨ normalize query = [] ∨
        ∀ p ∈ candidatePairs segments.length max_window,
          normalize (windowText segments p) = []) ∧
    (∀ d, mainExitCode true false d = 2) ∧
    (∀ m d, mainExitCode false m d = 1) ∧
    (2 : ℕ) ≠ 1 := by
  refine ⟨?_, fun d => rfl, fun m d => rfl, by norm_num⟩
  intro ratio segs query W
  simp only [find_best_match]
  split_ifs with h1 h2
  · simp [h1]
  · simp [h1, h2]
  · rw [foldl_stepCand_none_iff]
    simp [h1, h2, candAt_eq_none_iff]

/-! ## Text Normalizer: idempotence analysis -/

/-- Evaluates `Char.ofNat` on the image of the upper-case range under
`+32`. -/
lemma toNat_ofNat_of_upper {n : ℕ} (h1 : 65 ≤ n) (h2 : n ≤ 90) :
    (Char.ofNat (n + 32)).toNat = n + 32 := by
  interval_cases n <;> decide

/-- Characterizes `Char.toLower` on the upper-case range. -/
lemma toLower_eq_ofNat {c : Char} (h : 65 ≤ c.toNat ∧ c.toNat ≤ 90) :
    Char.toLower c = Char.ofNat (c.toNat + 32) := by
  simp only [Char.toLower]
  rw [if_pos ⟨h.1, h.2⟩]

/-- Characterizes `Char.toLower` outside the upper-case range. -/
lemma toLower_eq_self_of_not {c : Char} (h : ¬(65 ≤ c.toNat ∧ c.toNat ≤ 90)) :
    Char.toLower c = c := by
  simp only [Char.toLower]
  rw [if_neg]
  exact fun hh => h ⟨hh.1, hh.2⟩

/-- Lower-casing a character twice is the same as doing it once. -/
lemma toLower_toLower (c : Char) : (Char.toLower c).toLower = Char.toLower c := by
  by_cases h : 65 ≤ c.toNat ∧ c.toNat ≤ 90
  · rw [toLower_eq_ofNat h]
    apply toLower_eq_self_of_not
    rw [toNat_ofNat_of_upper h.1 h.2]
    omega
  · rw [toLower_eq_self_of_not h]
    exact toLower_eq_self_of_not h

/-- Every character of a collapsed string is a space or comes from the
input. -/
lemma mem_collapseAux {c : Char} :
    ∀ (b : Bool) (l : List Char), c ∈ collapseAux b l → c = ' ' ∨ c ∈ l := by
  intro b l
  induction l generalizing b with
  | nil => simp [collapseAux]
  | cons d ds ih =>
    simp only [collapseAux]
    split_ifs with h1 h2 <;> intro hm
    · rcases ih true hm with h | h
      · exact Or.inl h
      · exact Or.inr (List.mem_cons_of_mem d h)
    · rcases List.mem_cons.mp hm with h | h
      · exact Or.inl h
      · rcases ih true h with h' | h'
        · exact Or.inl h'
        · exact Or.inr (List.mem_cons_of_mem d h')
    · rcases List.mem_cons.mp hm with h | h
      · exact Or.inr (h ▸ List.mem_cons_self d ds)
      · rcases ih false h with h' | h'
        · exact Or.inl h'
        · exact Or.inr (List.mem_cons_of_mem d h')

/-- Every whitespace character of a collapsed string is the plain
space. -/
lemma space_mem_collapseAux {c : Char} :
    ∀ (b : Bool) (l : List Char),
      c ∈ collapseAux b l → isPySpace c = true → c = ' ' := by
  intro b l
  induction l generalizing b with
  | nil => simp [collapseAux]
  | cons d ds ih =>
    simp only [collapseAux]
    split_ifs with h1 h2 <;> intro hm hsp
    · exact ih true hm hsp
    · rcases List.mem_cons.mp hm with h | h
      · exact h
      · exact ih true h hsp
    · rcases List.mem_cons.mp hm with h | h
      · exact absurd (h ▸ hsp) h1
      · exact ih false h hsp

/-- With the flag set, a collapsed string never starts with whitespace. -/
lemma head?_collapseAux_true :
    ∀ (l : List Char) {c : Char},
      (collapseAux true l).head? = some c → isPySpace c = false := by
  intro l
  induction l with
  | nil => intro c h; simp [collapseAux] at h
  | cons d ds ih =>
    intro c h
    by_cases h1 : isPySpace d = true
    · rw [show collapseAux true (d :: ds) = collapseAux true ds from by
        simp [collapseAux, h1]] at h
      exact ih h
    · have h1' : isPySpace d = false := by
        cases hx : isPySpace d
        · rfl
        · exact absurd hx h1
      rw [show collapseAux true (d :: ds) = d :: collapseAux false ds from by
        simp [collapseAux, h1']] at h
      rw [List.head?_cons] at h
      injection h with h
      subst h
      exact h1'

/-- A collapsed string never contains two adjacent whitespace
characters. -/
lemma chain'_collapseAux :
    ∀ (b : Bool) (l : List Char),
      (collapseAux b l).Chain'
        (fun a b => ¬(isPySpace a = true ∧ isPySpace b = true)) := by
  intro b l
  induction l generalizing b with
  | nil => simp [collapseAux]
  | cons d ds ih =>
    by_cases h1 : isPySpace d = true
    · cases b with
      | true => simpa [collapseAux, h1] using ih true
      | false =>
        rw [show collapseAux false (d :: ds) = ' ' :: collapseAux true ds from by
          simp [collapseAux, h1]]
        rw [List.chain'_cons']
        refine ⟨?_, ih true⟩
        intro y hy hcon
        have hns : isPySpace y = false :=
          head?_collapseAux_true ds (Option.mem_def.mp hy)
        rw [hns] at hcon
        exact absurd hcon.2 (by simp)
    · have h1' : isPySpace d = false := by
        cases hx : isPySpace d
        · rfl
        · exact absurd hx h1
      rw [show collapseAux b (d :: ds) = d :: collapseAux false ds from by
        simp [collapseAux, h1']]
      rw [List.chain'_cons']
      refine ⟨?_, ih false⟩
      intro y hy hcon
      rw [h1'] at hcon
      exact absurd hcon.1 (by simp)

/-- Collapsing is the identity on a string whose whitespace characters
are all plain spaces with no two adjacent. -/
lemma collapseAux_eq_self :
    ∀ (l : List Char),
      (∀ c ∈ l, isPySpace c = true → c = ' ') →
      l.Chain' (fun a b => ¬(isPySpace a = true ∧ isPySpace b = true)) →
      collapseAux false l = l := by
  intro l
  induction l with
  | nil => intro _ _; rfl
  | cons d ds ih =>
    intro hall hch
    by_cases h1 : isPySpace d = true
    · have hd : d = ' ' := hall d (List.mem_cons_self d ds) h1
      cases ds with
      | nil =>
        subst hd
        decide
      | cons e es =>
        have hde : ¬(isPySpace d = true ∧ isPySpace e = true) :=
          (List.chain'_cons.mp hch).1
        have he : isPySpace e = false := by
          cases hx : isPySpace e
          · rfl
          · exact absurd ⟨h1, hx⟩ hde
        have ihres : collapseAux false (e :: es) = e :: es :=
          ih (fun c hc hsp => hall c (List.mem_cons_of_mem d hc) hsp)
            (List.chain'_cons.mp hch).2
        have hstep : collapseAux false (e :: es) = e :: collapseAux false es := by
          simp [collapseAux, he]
        have hes : collapseAux false es = es := by
          rw [hstep] at ihres
          injection ihres
        simp [collapseAux, h1, he, hd, hes]
    · have h1' : isPySpace d = false := by
        cases hx : isPySpace d
        · rfl
        · exact absurd hx h1
      have ihres := ih (fun c hc hsp => hall c (List.mem_cons_of_mem d hc) hsp) hch.tail
      simp [collapseAux, h1', ihres]

/-- Removing trailing whitespace yields a prefix. -/
lemma dropTrailing_prefixOf (l : List Char) : dropTrailing l <+: l := by
  simpa using
    List.reverse_prefix.mpr
      (show l.reverse.dropWhile isPySpace <:+ l.reverse from
        List.dropWhile_suffix isPySpace)

/-- Stripping yields a contiguous piece of the input. -/
lemma pyStrip_infixOf (l : List Char) : pyStrip l <:+: l :=
  (dropTrailing_prefixOf (l.dropWhile isPySpace)).isInfix.trans
    (List.dropWhile_suffix isPySpace).isInfix

/-- Every character of a stripped string comes from the input. -/
lemma mem_pyStrip {c : Char} {l : List Char} (h : c ∈ pyStrip l) : c ∈ l :=
  (pyStrip_infixOf l).subset h

/-- Reads the failed predicate off the head of a `dropWhile` result. -/
lemma head?_dropWhile {p : Char → Bool} {l : List Char} {c : Char}
    (h : (l.dropWhile p).head? = some c) : p c = false := by
  have hd := List.head?_dropWhile_not p l
  rw [h] at hd
  exact hd

/-- A stripped string never starts with whitespace. -/
lemma head?_pyStrip {l : List Char} {c : Char}
    (h : (pyStrip l).head? = some c) : isPySpace c = false := by
  obtain ⟨t, ht⟩ := dropTrailing_prefixOf (l.dropWhile isPySpace)
  cases hz : pyStrip l with
  | nil => rw [hz] at h; cases h
  | cons a as =>
    rw [hz] at h
    rw [List.head?_cons] at h
    injection h with h
    subst h
    have : (l.dropWhile isPySpace).head? = some a := by
      rw [← ht]
      unfold pyStrip at hz
      rw [hz]
      rfl
    exact head?_dropWhile this

/-- A stripped string never ends with whitespace. -/
lemma revhead?_pyStrip {l : List Char} {c : Char}
    (h : (pyStrip l).reverse.head? = some c) : isPySpace c = false := by
  have hrw : (pyStrip l).reverse = (l.dropWhile isPySpace).reverse.dropWhile isPySpace := by
    unfold pyStrip dropTrailing
    rw [List.reverse_reverse]
  rw [hrw] at h
  exact head?_dropWhile h

/-- Stripping is the identity on a string with no leading or trailing
whitespace. -/
lemma pyStrip_eq_self {l : List Char}
    (hhead : ∀ c, l.head? = some c → isPySpace c = false)
    (hlast : ∀ c, l.reverse.head? = some c → isPySpace c = false) :
    pyStrip l = l := by
  have h1 : l.dropWhile isPySpace = l := by
    cases l with
    | nil => rfl
    | cons a as =>
      apply List.dropWhile_cons_of_neg
      simp [hhead a rfl]
  unfold pyStrip dropTrailing
  rw [h1]
  have h2 : l.reverse.dropWhile isPySpace = l.reverse := by
    cases hr : l.reverse with
    | nil => rfl
    | cons a as =>
      apply List.dropWhile_cons_of_neg
      simp [hlast a (by rw [hr]; rfl)]
  rw [h2, List.reverse_reverse]

/-- Mapping `Char.toLower` is the identity on an already lowered
string. -/
lemma map_toLower_eq_self {l : List Char} (h : ∀ c ∈ l, Char.toLower c = c) :
    l.map Char.toLower = l :=
  (List.map_congr_left h).trans (List.map_id l)

/-- Normalization is the identity on a string whose characters are kept
by the punctuation filter, whose whitespace is single plain spaces with
no two adjacent and none at either end, and which is already
lower-cased. -/
lemma normalize_fixed {l : List Char}
    (hgood : ∀ c ∈ l, goodChar c = true)
    (hsp : ∀ c ∈ l, isPySpace c = true → c = ' ')
    (hlow : ∀ c ∈ l, Char.toLower c = c)
    (hch : l.Chain' (fun a b => ¬(isPySpace a = true ∧ isPySpace b = true)))
    (hhead : ∀ c, l.head? = some c → isPySpace c = false)
    (hlast : ∀ c, l.reverse.head? = some c → isPySpace c = false) :
    normalize l = l := by
  unfold normalize collapseWs
  rw [collapseAux_eq_self l hsp hch]
  rw [pyStrip_eq_self hhead hlast]
  rw [map_toLower_eq_self hlow]
  exact List.filter_eq_self.mpr hgood

/-- On a string whose characters all pass the punctuation filter and are
already lowered, normalization reduces to collapsing and stripping. -/
lemma normalize_eq_strip_of_norm {y : List Char}
    (hgood : ∀ c ∈ y, goodChar c = true)
    (hlow : ∀ c ∈ y, Char.toLower c = c) :
    normalize y = pyStrip (collapseWs y) := by
  have h1 : ∀ c ∈ pyStrip (collapseWs y), Char.toLower c = c := by
    intro c hc
    rcases mem_collapseAux false y (mem_pyStrip hc) with h | h
    · subst h; decide
    · exact hlow c h
  have h2 : ∀ c ∈ pyStrip (collapseWs y), goodChar c = true := by
    intro c hc
    rcases mem_collapseAux false y (mem_pyStrip hc) with h | h
    · subst h; decide
    · exact hgood c h
  unfold normalize
  rw [map_toLower_eq_self h1]
  exact List.filter_eq_self.mpr h2

/-- C3 (counterexample): `normalize` is not idempotent: on `"a , b"` the
punctuation strip happens after whitespace collapsing and leaves the two
spaces around the removed comma adjacent, so a second pass shortens the
string again. -/
theorem normalize_not_idempotent_cex :
    normalize (normalize ['a', ' ', ',', ' ', 'b']) ≠
      normalize ['a', ' ', ',', ' ', 'b'] := by decide

/-- C3 (amended): a single application of `normalize` is not idempotent,
but a double application is: `normalize (normalize x)` is a fixed point of
`normalize` for every string `x`. -/
theorem normalize_double_idempotent (x : List Char) :
    normalize (normalize (normalize x)) = normalize (normalize x) := by
  have hgood_y : ∀ c ∈ normalize x, goodChar c = true := fun c hc =>
    List.of_mem_filter hc
  have hlow_y : ∀ c ∈ normalize x, Char.toLower c = c := by
    intro c hc
    have hc' : c ∈ (pyStrip (collapseWs x)).map Char.toLower :=
      List.mem_of_mem_filter hc
    obtain ⟨a, _, rfl⟩ := List.mem_map.mp hc'
    exact toLower_toLower a
  rw [normalize_eq_strip_of_norm hgood_y hlow_y]
  apply normalize_fixed
  · intro c hc
    rcases mem_collapseAux false (normalize x) (mem_pyStrip hc) with h | h
    · subst h; decide
    · exact hgood_y c h
  · intro c hc hsp
    exact space_mem_collapseAux false (normalize x) (mem_pyStrip hc) hsp
  · intro c hc
    rcases mem_collapseAux false (normalize x) (mem_pyStrip hc) with h | h
    · subst h; decide
    · exact hlow_y c h
  · exact List.Chain'.infix (chain'_collapseAux false (normalize x))
      (pyStrip_infixOf (collapseWs (normalize x)))
  · intro c hc
    exact head?_pyStrip hc
  · intro c hc
    exact revhead?_pyStrip hc

/-! ## Match Locator: maximality and tie-breaking -/

/-- Strict iteration order on (width, start index) pairs: smaller width
first, then smaller start index. -/
def lexLt (a b : ℕ × ℕ) : Prop :=
  a.1 < b.1 ∨ (a.1 = b.1 ∧ a.2 < b.2)

/-- Reflexive closure of `lexLt`. -/
def lexLe (a b : ℕ × ℕ) : Prop :=
  lexLt a b ∨ a = b

/-- The (width, start index) pair recorded inside a `Match`. -/
def pairOf (m : Match) : ℕ × ℕ :=
  (m.segment_count, m.start_segment_index)

lemma lexLe_of_le_of_lt {a b c : ℕ × ℕ} (h1 : lexLe a b) (h2 : lexLt b c) :
    lexLe a c := by
  rcases h1 with h1 | rfl
  · left
    unfold lexLt at *
    omega
  · left
    exact h2

/-- A produced candidate records the pair that generated it. -/
lemma candAt_pair {ratio : List Char → List Char → ℚ} {target : List Char}
    {segments : List Segment} {p : ℕ × ℕ} {c : Match}
    (h : candAt ratio target segments p = some c) : pairOf c = p := by
  simp only [candAt] at h
  by_cases hn : normalize (windowText segments p) = []
  · rw [if_pos hn] at h
    exact Option.noConfusion h
  · rw [if_neg hn] at h
    injection h with h
    subst h
    rfl

lemma stepCand_cand_none {ratio : List Char → List Char → ℚ}
    {target : List Char} {segments : List Segment} {q : ℕ × ℕ}
    (acc : Option Match) (h : candAt ratio target segments q = none) :
    stepCand ratio target segments acc q = acc := by
  unfold stepCand
  rw [h]

lemma stepCand_none_some {ratio : List Char → List Char → ℚ}
    {target : List Char} {segments : List Segment} {q : ℕ × ℕ} {c : Match}
    (h : candAt ratio target segments q = some c) :
    stepCand ratio target segments none q = some c := by
  unfold stepCand
  rw [h]

lemma stepCand_some_some {ratio : List Char → List Char → ℚ}
    {target : List Char} {segments : List Segment} {q : ℕ × ℕ} {c : Match}
    (b : Match) (h : candAt ratio target segments q = some c) :
    stepCand ratio target segments (some b) q =
      if b.score < c.score then some c else some b := by
  unfold stepCand
  rw [h]

/-- The strict-improvement fold keeps the first maximum: whatever match it
returns is a candidate (or the seed), dominates every candidate's score,
and on score ties is iteration-least among them. -/
lemma foldl_stepCand_spec (ratio : List Char → List Char → ℚ)
    (target : List Char) (segments : List Segment) :
    ∀ (l : List (ℕ × ℕ)) (acc : Option Match) (m : Match),
      l.Pairwise lexLt →
      (∀ b, acc = some b → ∀ p ∈ l, lexLt (pairOf b) p) →
      l.foldl (stepCand ratio target segments) acc = some m →
      (∀ q ∈ l, ∀ c, candAt ratio target segments q = some c →
          c.score ≤ m.score ∧ (c.score = m.score → lexLe (pairOf m) q)) ∧
      (∀ b, acc = some b →
          b.score ≤ m.score ∧ (b.score = m.score → lexLe (pairOf m) (pairOf b))) ∧
      (acc = some m ∨ (pairOf m ∈ l ∧ candAt ratio target segments (pairOf m) = some m)) := by
  intro l
  induction l with
  | nil =>
    intro acc m _ _ hfold
    rw [List.foldl_nil] at hfold
    refine ⟨by simp, ?_, Or.inl hfold⟩
    intro b hb
    rw [hfold] at hb
    injection hb with hb
    subst hb
    exact ⟨le_refl _, fun _ => Or.inr rfl⟩
  | cons q rest ih =>
    intro acc m hpw hacc hfold
    rw [List.foldl_cons] at hfold
    have hq_rest : ∀ p ∈ rest, lexLt q p := (List.pairwise_cons.mp hpw).1
    have hpw' : rest.Pairwise lexLt := (List.pairwise_cons.mp hpw).2
    have hacc' : ∀ b, stepCand ratio target segments acc q = some b →
        ∀ p ∈ rest, lexLt (pairOf b) p := by
      intro b hb p hp
      cases hc : candAt ratio target segments q with
      | none =>
        rw [stepCand_cand_none acc hc] at hb
        exact hacc b hb p (List.mem_cons_of_mem q hp)
      | some c =>
        cases acc with
        | none =>
          rw [stepCand_none_some hc] at hb
          injection hb with hb
          subst hb
          rw [candAt_pair hc]
          exact hq_rest p hp
        | some b0 =>
          rw [stepCand_some_some b0 hc] at hb
          split_ifs at hb
          · injection hb with hb
            subst hb
            rw [candAt_pair hc]
            exact hq_rest p hp
          · injection hb with hb
            subst hb
            exact hacc b0 rfl p (List.mem_cons_of_mem q hp)
    obtain ⟨hall, haccb, hmem⟩ :=
      ih (stepCand ratio target segments acc q) m hpw' hacc' hfold
    refine ⟨?_, ?_, ?_⟩
    · intro p hp c hcand
      rcases List.mem_cons.mp hp with rfl | hp'
      · cases acc with
        | none =>
          obtain ⟨hle, heq⟩ := haccb c (stepCand_none_some hcand)
          refine ⟨hle, fun hscore => ?_⟩
          have hx := heq hscore
          rwa [candAt_pair hcand] at hx
        | some b0 =>
          by_cases hlt : b0.score < c.score
          · have hstep : stepCand ratio target segments (some b0) p = some c := by
              rw [stepCand_some_some b0 hcand, if_pos hlt]
            obtain ⟨hle, heq⟩ := haccb c hstep
            refine ⟨hle, fun hscore => ?_⟩
            have hx := heq hscore
            rwa [candAt_pair hcand] at hx
          · have hstep : stepCand ratio target segments (some b0) p = some b0 := by
              rw [stepCand_some_some b0 hcand, if_neg hlt]
            obtain ⟨hle0, heq0⟩ := haccb b0 hstep
            have hcle : c.score ≤ b0.score := not_lt.mp hlt
            refine ⟨le_trans hcle hle0, fun hscore => ?_⟩
            have hb0m : b0.score = m.score := le_antisymm hle0 (hscore ▸ hcle)
            exact lexLe_of_le_of_lt (heq0 hb0m)
              (hacc b0 rfl p (List.mem_cons_self p rest))
      · exact hall p hp' c hcand
    · intro b hb
      cases hc : candAt ratio target segments q with
      | none =>
        apply haccb
        rw [stepCand_cand_none acc hc, hb]
      | some c =>
        subst hb
        by_cases hlt : b.score < c.score
        · have hstep : stepCand ratio target segments (some b) q = some c := by
            rw [stepCand_some_some b hc, if_pos hlt]
          obtain ⟨hle, _⟩ := haccb c hstep
          refine ⟨le_trans (le_of_lt hlt) hle, fun hscore => absurd ?_ (lt_irrefl b.score)⟩
          calc b.score < c.score := hlt
            _ ≤ m.score := hle
            _ = b.score := hscore.symm
        · have hstep : stepCand ratio target segments (some b) q = some b := by
            rw [stepCand_some_some b hc, if_neg hlt]
          exact haccb b hstep
    · rcases hmem with hmem | ⟨hin, hcand⟩
      · cases hc : candAt ratio target segments q with
        | none =>
          rw [stepCand_cand_none acc hc] at hmem
          exact Or.inl hmem
        | some c =>
          cases acc with
          | none =>
            rw [stepCand_none_some hc] at hmem
            injection hmem with hmem
            subst hmem
            right
            constructor
            · rw [candAt_pair hc]
              exact List.mem_cons_self q rest
            · rw [candAt_pair hc]
              exact hc
          | some b0 =>
            rw [stepCand_some_some b0 hc] at hmem
            split_ifs at hmem
            · injection hmem with hmem
              subst hmem
              right
              constructor
              · rw [candAt_pair hc]
                exact List.mem_cons_self q rest
              · rw [candAt_pair hc]
                exact hc
            · injection hmem with hmem
              subst hmem
              exact Or.inl rfl
      · exact Or.inr ⟨List.mem_cons_of_mem q hin, hcand⟩

/-- The iteration order of `find_best_match` lists the candidate pairs in
strictly increasing (width, start index) order. -/
lemma pairwise_candidatePairs (n W : ℕ) :
    (candidatePairs n W).Pairwise lexLt := by
  unfold candidatePairs
  rw [List.pairwise_flatMap]
  constructor
  · intro w _
    rw [List.pairwise_map]
    exact (List.pairwise_lt_range _).imp fun hab => Or.inr ⟨rfl, hab⟩
  · refine (List.pairwise_lt_range' 1 W).imp ?_
    intro w1 w2 h12 x hx y hy
    obtain ⟨i, _, rfl⟩ := List.mem_map.mp hx
    obtain ⟨j, _, rfl⟩ := List.mem_map.mp hy
    exact Or.inl h12

/-- C4 (confirmed): whenever `find_best_match` returns a match, that
match is one of the candidate windows, its score is maximal among all
candidates, and on equal maximal scores it carries the iteration-least
(width, start-index) pair — smallest window width, then smallest start
index — because the width-ascending, index-ascending iteration with a
strict greater-than update keeps the first maximum. -/
theorem find_best_match_argmax (ratio : List Char → List Char → ℚ)
    (segments : List Segment) (query : List Char) (max_window : ℕ) (m : Match)
    (h : find_best_match ratio segments query max_window = some m) :
    (pairOf m ∈ candidatePairs segments.length max_window ∧
      candAt ratio (normalize query) segments (pairOf m) = some m) ∧
    (∀ q ∈ candidatePairs segments.length max_window,
      ∀ c, candAt ratio (normalize query) segments q = some c →
        c.score ≤ m.score ∧ (c.score = m.score → lexLe (pairOf m) q)) := by
  simp only [find_best_match] at h
  by_cases h1 : segments = []
  · rw [if_pos h1] at h
    exact Option.noConfusion h
  · rw [if_neg h1] at h
    by_cases h2 : normalize query = []
    · rw [if_pos h2] at h
      exact Option.noConfusion h
    · rw [if_neg h2] at h
      obtain ⟨hall, _, hmem⟩ :=
        foldl_stepCand_spec ratio (normalize query) segments
          (candidatePairs segments.length max_window) none m
          (pairwise_candidatePairs _ _) (fun b hb => Option.noConfusion hb) h
      rcases hmem with hmem | hmem
      · exact Option.noConfusion hmem
      · exact ⟨hmem, hall⟩

/-- Concrete transcript used for the Match Locator witness. -/
def demoSegs : List Segment :=
  [⟨['h', 'e', 'l', 'l', 'o', ' ', 't', 'h', 'e', 'r', 'e'], 0, 2⟩,
   ⟨['f', 'r', 'i', 'e', 'n', 'd', ' ', 'o', 'f', ' ', 'm', 'i', 'n', 'e'], 2, 4⟩]

/-- Concrete query used for the Match Locator witness. -/
def demoQuery : List Char := ['h', 'e', 'l', 'l', 'o']

/-- The match the demo search returns: the first window, with the +0.5
substring bonus on top of the (constantly zero) abstract ratio. -/
def demoMatch : Match :=
  ⟨['h', 'e', 'l', 'l', 'o', ' ', 't', 'h', 'e', 'r', 'e'], 0, 2, 1/2, 0, 1⟩

/-- The candidate produced by the second window of the demo search. -/
def demoMatch2 : Match :=
  ⟨['f', 'r', 'i', 'e', 'n', 'd', ' ', 'o', 'f', ' ', 'm', 'i', 'n', 'e'], 2, 4, 0, 1, 1⟩

/-- C4 (witness): on the demo transcript with width bound 1 the search
returns the first window, and the returned match dominates every
candidate with the iteration-least pair on ties. -/
theorem find_best_match_argmax_witness :
    (pairOf demoMatch ∈ candidatePairs demoSegs.length 1 ∧
      candAt (fun _ _ => 0) (normalize demoQuery) demoSegs (pairOf demoMatch) =
        some demoMatch) ∧
    (∀ q ∈ candidatePairs demoSegs.length 1,
      ∀ c, candAt (fun _ _ => 0) (normalize demoQuery) demoSegs q = some c →
        c.score ≤ demoMatch.score ∧
        (c.score = demoMatch.score → lexLe (pairOf demoMatch) q)) :=
  find_best_match_argmax (fun _ _ => 0) demoSegs demoQuery 1 demoMatch (by
    have hq : normalize demoQuery = demoQuery := by decide
    have hc1 : candAt (fun _ _ => 0) demoQuery demoSegs (1, 0) = some demoMatch := by
      simp only [candAt]
      rw [if_neg (by decide : ¬(normalize (windowText demoSegs (1, 0)) = []))]
      rw [show windowText demoSegs (1, 0) = demoMatch.text from by decide,
        show windowStart (windowSegs demoSegs (1, 0)) = 0 from by decide,
        show windowStop (windowSegs demoSegs (1, 0)) = 2 from by decide,
        show containsSub demoQuery (normalize demoMatch.text) = true from by decide]
      norm_num [demoMatch]
    have hc2 : candAt (fun _ _ => 0) demoQuery demoSegs (1, 1) = some demoMatch2 := by
      simp only [candAt]
      rw [if_neg (by decide : ¬(normalize (windowText demoSegs (1, 1)) = []))]
      rw [show windowText demoSegs (1, 1) = demoMatch2.text from by decide,
        show windowStart (windowSegs demoSegs (1, 1)) = 2 from by decide,
        show windowStop (windowSegs demoSegs (1, 1)) = 4 from by decide,
        show containsSub demoQuery (normalize demoMatch2.text) = false from by decide]
      norm_num [demoMatch2]
    have hpairs : candidatePairs demoSegs.length 1 = [(1, 0), (1, 1)] := by decide
    have hnl : ¬(demoMatch.score < demoMatch2.score) := by
      norm_num [demoMatch, demoMatch2]
    simp only [find_best_match, hq]
    rw [if_neg (by decide : ¬(demoSegs = []))]
    rw [if_neg (by decide : ¬(demoQuery = []))]
    rw [hpairs, List.foldl_cons, stepCand_none_some hc1, List.foldl_cons,
      stepCand_some_some demoMatch hc2, if_neg hnl, List.foldl_nil])

end Clipper
